import Mathlib

/-!
# Verification of the hybrid-retrieval and citation core

A shallow embedding, in Lean 4, of the retrieval and citation components of a
conversational-RAG pipeline:

* `retrieval/base_retriever.py` — query validation and result formatting;
* `retrieval/hybrid_retriever.py` — score normalization, BM25-wrapper sparse
  search, dense/sparse merging and re-ranking;
* `generation/citation_handler.py` — citation extraction, source linking and
  citation removal.

Python dictionaries holding retrieval results are modelled by the structure
`RDoc` whose optional fields (`Option`) stand for keys that may be absent;
`o.getD v` models `dict.get(key, v)`.  Scores are modelled by `ℚ`.  External
collaborators (the vector store, the embedding service, and the `rank_bm25`
scoring library) are not part of the repository; their outputs enter the
embedded functions as explicit arguments.

Python's `list.sort(key=..., reverse=True)` and
`sorted(..., key=..., reverse=True)` are stable descending sorts; they are
modelled by `sortDesc`, an insertion sort that inserts each element before
the first strictly-smaller key, which is proved below to sort descendingly
and to preserve the relative order of equal-key elements.
-/

namespace RagCore

/-! ## Stable descending sort (model of Python sorts with `reverse=True`) -/

/-- Insert `x` into `l`, passing only elements whose key is strictly greater:
`x` lands in front of the first element whose key is `≤ key x`.  Combined with
`sortDesc` (which folds from the right) this reproduces a stable descending
sort. -/
def insertDesc (key : α → ℚ) (x : α) : List α → List α
  | [] => [x]
  | y :: ys => if key x < key y then y :: insertDesc key x ys else x :: y :: ys

/-- Stable descending insertion sort by a rational-valued key. -/
def sortDesc (key : α → ℚ) : List α → List α
  | [] => []
  | x :: xs => insertDesc key x (sortDesc key xs)

theorem mem_insertDesc (key : α → ℚ) (x z : α) (l : List α) :
    z ∈ insertDesc key x l ↔ z = x ∨ z ∈ l := by
  induction l with
  | nil => simp [insertDesc]
  | cons y ys ih =>
    by_cases h : key x < key y
    · simp only [insertDesc, if_pos h, List.mem_cons, ih]
      tauto
    · simp only [insertDesc, if_neg h, List.mem_cons]

theorem insertDesc_perm (key : α → ℚ) (x : α) (l : List α) :
    (insertDesc key x l).Perm (x :: l) := by
  induction l with
  | nil => simp [insertDesc]
  | cons y ys ih =>
    by_cases h : key x < key y
    · simp only [insertDesc, if_pos h]
      exact (ih.cons y).trans (List.Perm.swap x y ys)
    · simp [insertDesc, if_neg h]

theorem sortDesc_perm (key : α → ℚ) (l : List α) : (sortDesc key l).Perm l := by
  induction l with
  | nil => simp [sortDesc]
  | cons x xs ih =>
    exact (insertDesc_perm key x (sortDesc key xs)).trans (ih.cons x)

theorem mem_sortDesc (key : α → ℚ) (z : α) (l : List α) :
    z ∈ sortDesc key l ↔ z ∈ l := (sortDesc_perm key l).mem_iff

/-- Inserting an element `a` whose key ties only with elements it may precede
(`P a b` whenever `key a = key b`) preserves the combined
"strictly-greater-key or tie-resolved-by-`P`" pairwise invariant. -/
theorem pairwise_insertDesc (key : α → ℚ) (P : α → α → Prop) (a : α) (m : List α)
    (hm : m.Pairwise (fun x y => key y < key x ∨ (key x = key y ∧ P x y)))
    (ha : ∀ b ∈ m, key a = key b → P a b) :
    (insertDesc key a m).Pairwise
      (fun x y => key y < key x ∨ (key x = key y ∧ P x y)) := by
  induction m with
  | nil => simp [insertDesc]
  | cons y ys ih =>
    rcases List.pairwise_cons.mp hm with ⟨hy, hys⟩
    by_cases h : key a < key y
    · simp only [insertDesc, if_pos h]
      refine List.pairwise_cons.mpr ⟨?_, ih hys ?_⟩
      · intro z hz
        rcases (mem_insertDesc key a z ys).mp hz with rfl | hz
        · exact Or.inl h
        · exact hy z hz
      · intro b hb hab
        exact ha b (List.mem_cons_of_mem y hb) hab
    · simp only [insertDesc, if_neg h]
      push_neg at h
      refine List.pairwise_cons.mpr ⟨?_, hm⟩
      intro z hz
      rcases List.mem_cons.mp hz with rfl | hz
      · rcases lt_or_eq_of_le h with hlt | heq
        · exact Or.inl hlt
        · exact Or.inr ⟨heq.symm, ha z (List.mem_cons_self z ys) heq.symm⟩
      · rcases hy z hz with hlt | ⟨heq, _⟩
        · exact Or.inl (lt_of_lt_of_le hlt h)
        · rcases lt_or_eq_of_le h with hlt' | heq'
          · exact Or.inl (heq ▸ hlt')
          · exact Or.inr ⟨heq' ▸ heq, ha z (List.mem_cons_of_mem y hz) (heq' ▸ heq)⟩

/-- Stability of `sortDesc`: if the input satisfies some pairwise order `P`
(e.g. "appears earlier"), then in the output every pair is either strictly
descending in key or a tie in the input's original relative order. -/
theorem sortDesc_pairwise_stable (key : α → ℚ) (P : α → α → Prop) (l : List α)
    (hl : l.Pairwise P) :
    (sortDesc key l).Pairwise
      (fun x y => key y < key x ∨ (key x = key y ∧ P x y)) := by
  induction l with
  | nil => simp [sortDesc]
  | cons x xs ih =>
    rcases List.pairwise_cons.mp hl with ⟨hx, hxs⟩
    exact pairwise_insertDesc key P x (sortDesc key xs) (ih hxs)
      (fun b hb _ => hx b ((mem_sortDesc key b xs).mp hb))

theorem pairwise_trivial (l : List α) : l.Pairwise (fun _ _ => True) := by
  induction l <;> simp [*]

/-- `sortDesc` sorts descendingly (non-strictly) by key. -/
theorem sortDesc_sorted (key : α → ℚ) (l : List α) :
    (sortDesc key l).Pairwise (fun x y => key y ≤ key x) := by
  refine (sortDesc_pairwise_stable key (fun _ _ => True) l (pairwise_trivial l)).imp ?_
  rintro a b (h | ⟨h, -⟩)
  · exact le_of_lt h
  · exact le_of_eq h.symm

/-- A list already sorted descendingly is left unchanged (Python's stable sort
is the identity on sorted input). -/
theorem sortDesc_eq_self (key : α → ℚ) (l : List α)
    (h : l.Pairwise (fun x y => key y ≤ key x)) : sortDesc key l = l := by
  induction l with
  | nil => rfl
  | cons x xs ih =>
    rcases List.pairwise_cons.mp h with ⟨hx, hxs⟩
    have hrec : sortDesc key (x :: xs) = insertDesc key x xs := by
      simp [sortDesc, ih hxs]
    rw [hrec]
    cases xs with
    | nil => rfl
    | cons y ys =>
      have : ¬ key x < key y := not_lt.mpr (hx y (List.mem_cons_self y ys))
      simp [insertDesc, this]

/-! ## Retrieval result dictionaries

A retrieval result is a Python dict.  Keys the repository's code reads with a
plain default (`result.get("text", "")`, `result.get("score", 0)`, ...) are
plain fields holding that default when the key is absent; keys whose presence
the code distinguishes (`score_normalized`, `hybrid_score`, `dense_score`,
`sparse_score`, `search_type`) are `Option` fields, `none` meaning the key is
absent. -/

structure RDoc where
  id : String := ""
  text : String := ""
  score : ℚ := 0
  video_id : String := "unknown"
  chunk_id : ℕ := 0
  metadata : List (String × String) := []
  score_normalized : Option ℚ := none
  hybrid_score : Option ℚ := none
  dense_score : Option ℚ := none
  sparse_score : Option ℚ := none
  search_type : Option String := none
  original_query : Option String := none
  rewritten_query : Option String := none
deriving DecidableEq, Repr, Inhabited

/-- Python's `min` over a non-empty list (`listMin [] = 0` is never used by
the embedded code, which returns early on empty input). -/
def listMin : List ℚ → ℚ
  | [] => 0
  | x :: xs => xs.foldl min x

/-- Python's `max` over a non-empty list. -/
def listMax : List ℚ → ℚ
  | [] => 0
  | x :: xs => xs.foldl max x

theorem foldl_min_le (xs : List ℚ) : ∀ a x, x ∈ a :: xs → xs.foldl min a ≤ x := by
  induction xs with
  | nil =>
    intro a x h
    simp only [List.mem_singleton] at h
    subst h
    simp [List.foldl]
  | cons y ys ih =>
    intro a x h
    simp only [List.foldl_cons]
    have hbase : ys.foldl min (min a y) ≤ min a y :=
      ih (min a y) (min a y) (List.mem_cons_self _ _)
    rcases List.mem_cons.mp h with rfl | h'
    · exact le_trans hbase (min_le_left x y)
    · rcases List.mem_cons.mp h' with rfl | h''
      · exact le_trans hbase (min_le_right a x)
      · exact ih (min a y) x (List.mem_cons_of_mem _ h'')

theorem listMin_le (l : List ℚ) (x : ℚ) (h : x ∈ l) : listMin l ≤ x := by
  cases l with
  | nil => simp at h
  | cons a xs => exact foldl_min_le xs a x h

theorem le_foldl_max (xs : List ℚ) : ∀ a x, x ∈ a :: xs → x ≤ xs.foldl max a := by
  induction xs with
  | nil =>
    intro a x h
    simp only [List.mem_singleton] at h
    subst h
    simp [List.foldl]
  | cons y ys ih =>
    intro a x h
    simp only [List.foldl_cons]
    have hbase : max a y ≤ ys.foldl max (max a y) :=
      ih (max a y) (max a y) (List.mem_cons_self _ _)
    rcases List.mem_cons.mp h with rfl | h'
    · exact le_trans (le_max_left x y) hbase
    · rcases List.mem_cons.mp h' with rfl | h''
      · exact le_trans (le_max_right a x) hbase
      · exact ih (max a y) x (List.mem_cons_of_mem _ h'')

theorem le_listMax (l : List ℚ) (x : ℚ) (h : x ∈ l) : x ≤ listMax l := by
  cases l with
  | nil => simp at h
  | cons a xs => exact le_foldl_max xs a x h

/-! ## `normalize_scores` (`hybrid_retriever.py`, inner function of
`HybridRetriever._merge_results`)

```python
def normalize_scores(results, key="score"):
    if not results:
        return results
    scores = [r[key] for r in results]
    min_score = min(scores); max_score = max(scores)
    if max_score == min_score:
        return results
    for result in results:
        result[f"{key}_normalized"] = (result[key] - min_score) / (max_score - min_score)
    return results
```
-/

def normalize_scores (results : List RDoc) : List RDoc :=
  if results.isEmpty then results
  else
    let scores := results.map (·.score)
    let min_score := listMin scores
    let max_score := listMax scores
    if max_score = min_score then results
    else results.map (fun r =>
      { r with score_normalized := some ((r.score - min_score) / (max_score - min_score)) })

theorem normalize_scores_map_id (results : List RDoc) :
    (normalize_scores results).map (·.id) = results.map (·.id) := by
  unfold normalize_scores
  by_cases h1 : results.isEmpty
  · simp [h1]
  · by_cases h2 : listMax (results.map (·.score)) = listMin (results.map (·.score)) <;>
      simp [h1, h2]

theorem normalize_scores_map_score (results : List RDoc) :
    (normalize_scores results).map (·.score) = results.map (·.score) := by
  unfold normalize_scores
  by_cases h1 : results.isEmpty
  · simp [h1]
  · by_cases h2 : listMax (results.map (·.score)) = listMin (results.map (·.score)) <;>
      simp [h1, h2]

/-- C5, claim, spec §4.1: on a non-empty list with `max > min`, min-max scaling
`(score - min) / (max - min)` yields values in `[0,1]` that preserve strict
score order; when all scores are equal (including singletons) the input is
returned unchanged with no division performed; empty input yields empty
output. -/
theorem normalize_scores_spec (results : List RDoc) :
    (normalize_scores [] = ([] : List RDoc)) ∧
    (listMax (results.map (·.score)) = listMin (results.map (·.score)) →
      normalize_scores results = results) ∧
    (listMin (results.map (·.score)) < listMax (results.map (·.score)) →
      ((normalize_scores results).map (·.score) = results.map (·.score) ∧
       (normalize_scores results).map (·.score_normalized) =
         results.map (fun r => some ((r.score - listMin (results.map (·.score))) /
           (listMax (results.map (·.score)) - listMin (results.map (·.score))))) ∧
       (∀ r ∈ normalize_scores results,
          0 ≤ (r.score_normalized.getD 0) ∧ (r.score_normalized.getD 0) ≤ 1) ∧
       (∀ r ∈ normalize_scores results, ∀ s ∈ normalize_scores results,
          r.score < s.score →
            r.score_normalized.getD 0 < s.score_normalized.getD 0))) := by
  refine ⟨rfl, ?_, ?_⟩
  · intro h
    unfold normalize_scores
    by_cases h1 : results.isEmpty
    · simp [h1]
    · simp [h1, h]
  · intro hlt
    have hne : ¬ results.isEmpty := by
      intro h
      rw [List.isEmpty_iff] at h
      subst h
      simp [listMin, listMax] at hlt
    have hmaxne : ¬ listMax (results.map (·.score)) = listMin (results.map (·.score)) :=
      fun h => absurd (h ▸ hlt) (lt_irrefl _)
    have hpos : 0 < listMax (results.map (·.score)) - listMin (results.map (·.score)) :=
      sub_pos.mpr hlt
    have hform : normalize_scores results = results.map (fun r =>
        { r with score_normalized := some ((r.score - listMin (results.map (·.score))) /
            (listMax (results.map (·.score)) - listMin (results.map (·.score)))) }) := by
      unfold normalize_scores
      simp [hne, hmaxne]
    refine ⟨?_, ?_, ?_, ?_⟩
    · rw [hform]
      simp
    · rw [hform]
      simp
    · intro r hr
      rw [hform] at hr
      rcases List.mem_map.mp hr with ⟨s, hs, rfl⟩
      have hmin : listMin (results.map (·.score)) ≤ s.score :=
        listMin_le _ _ (List.mem_map.mpr ⟨s, hs, rfl⟩)
      have hmax : s.score ≤ listMax (results.map (·.score)) :=
        le_listMax _ _ (List.mem_map.mpr ⟨s, hs, rfl⟩)
      constructor
      · exact div_nonneg (sub_nonneg.mpr hmin) (le_of_lt hpos)
      · dsimp only
        rw [Option.getD_some, div_le_one hpos]
        exact sub_le_sub_right hmax _
    · intro r hr s hs hlt'
      rw [hform] at hr hs
      rcases List.mem_map.mp hr with ⟨r0, hr0, rfl⟩
      rcases List.mem_map.mp hs with ⟨s0, hs0, rfl⟩
      dsimp only at hlt' ⊢
      simp only [Option.getD_some]
      exact (div_lt_div_iff_of_pos_right hpos).mpr (sub_lt_sub_right hlt' _)

/-- Witness for `normalize_scores_spec` at a concrete two-element input with
`max > min`. -/
theorem normalize_scores_spec_witness :
    (normalize_scores [{ id := "a", score := 1 }, { id := "b", score := 3 }]).map
        (·.score_normalized) =
      [some 0, some 1] := by
  have h := (normalize_scores_spec
      [{ id := "a", score := 1 }, { id := "b", score := 3 }]).2.2 (by decide)
  rw [h.2.1]
  have h1 : listMin (List.map (·.score)
      [({ id := "a", score := 1 } : RDoc), { id := "b", score := 3 }]) = 1 := by decide
  have h2 : listMax (List.map (·.score)
      [({ id := "a", score := 1 } : RDoc), { id := "b", score := 3 }]) = 3 := by decide
  rw [h1, h2]
  norm_num

/-! ## The `combined` dict of `_merge_results`

Python dicts preserve insertion order; assigning an existing key replaces the
value in place, a new key is appended.  The `combined` dict keyed by
`result.get("id", "")` is modelled as a `List RDoc` whose entries carry their
key in `.id`, with `dictSet` (assignment), `dictModify` (in-place update of
an existing key) and `dictMem` (the `in` test). -/

def keys (l : List RDoc) : List String := l.map (·.id)

/-- `combined[v.id] = v`: replace the first entry with this key in place, or
append if the key is new. -/
def dictSet (v : RDoc) : List RDoc → List RDoc
  | [] => [v]
  | e :: es => if e.id = v.id then v :: es else e :: dictSet v es

/-- In-place update of the (first) entry with key `k`. -/
def dictModify (k : String) (f : RDoc → RDoc) : List RDoc → List RDoc
  | [] => []
  | e :: es => if e.id = k then f e :: es else e :: dictModify k f es

/-- `k in combined`. -/
def dictMem (k : String) (l : List RDoc) : Bool := l.any (fun e => e.id = k)

theorem dictMem_iff (k : String) (l : List RDoc) : dictMem k l = true ↔ k ∈ keys l := by
  induction l with
  | nil => simp [dictMem, keys]
  | cons e es ih =>
    simp only [dictMem, List.any_cons, keys, List.map_cons, List.mem_cons] at *
    constructor
    · intro h
      rcases Bool.or_eq_true_iff.mp h with h | h
      · exact Or.inl (of_decide_eq_true h).symm
      · exact Or.inr (ih.mp h)
    · rintro (h | h)
      · exact Bool.or_eq_true_iff.mpr (Or.inl (decide_eq_true h.symm))
      · exact Bool.or_eq_true_iff.mpr (Or.inr (ih.mpr h))

theorem keys_nil : keys [] = [] := rfl

theorem keys_cons (e : RDoc) (es : List RDoc) : keys (e :: es) = e.id :: keys es := rfl

theorem keys_dictSet (v : RDoc) (l : List RDoc) :
    keys (dictSet v l) = if v.id ∈ keys l then keys l else keys l ++ [v.id] := by
  induction l with
  | nil => simp [dictSet, keys]
  | cons e es ih =>
    by_cases h : e.id = v.id
    · have hm : v.id ∈ keys (e :: es) := by simp [keys_cons, h]
      simp only [dictSet, if_pos h, if_pos hm, keys_cons]
      simp [h]
    · have hne : v.id ≠ e.id := fun hh => h hh.symm
      simp only [dictSet, if_neg h, keys_cons, ih]
      by_cases hm : v.id ∈ keys es
      · simp [keys_cons, hm, hne]
      · simp [keys_cons, hm, hne]

theorem keys_dictModify (k : String) (f : RDoc → RDoc)
    (hf : ∀ e, (f e).id = e.id) (l : List RDoc) :
    keys (dictModify k f l) = keys l := by
  induction l with
  | nil => rfl
  | cons e es ih =>
    by_cases h : e.id = k
    · simp [dictModify, keys, h, hf]
    · simp [dictModify, keys, h] at *
      exact ih

theorem dictSet_of_not_mem (v : RDoc) (l : List RDoc) (h : v.id ∉ keys l) :
    dictSet v l = l ++ [v] := by
  induction l with
  | nil => simp [dictSet]
  | cons e es ih =>
    simp only [keys, List.map_cons, List.mem_cons, not_or] at h
    have : ¬ e.id = v.id := fun hh => h.1 hh.symm
    simp [dictSet, this, ih (by simpa [keys] using h.2)]

/-! ## `_merge_results` (`hybrid_retriever.py`)

```python
combined = {}
for result in dense_results:
    doc_id = result.get("id", "")
    combined[doc_id] = result.copy()
    combined[doc_id]["hybrid_score"] = result.get("score_normalized", 0) * self.dense_weight
    combined[doc_id]["dense_score"] = result.get("score", 0)
    combined[doc_id]["sparse_score"] = 0.0
for result in sparse_results:
    doc_id = result.get("id", "")
    if doc_id in combined:
        combined[doc_id]["hybrid_score"] += result.get("score_normalized", 0) * self.sparse_weight
        combined[doc_id]["sparse_score"] = result.get("score", 0)
    else:
        combined[doc_id] = result.copy()
        combined[doc_id]["hybrid_score"] = result.get("score_normalized", 0) * self.sparse_weight
        combined[doc_id]["dense_score"] = 0.0
        combined[doc_id]["sparse_score"] = result.get("score", 0)
merged = list(combined.values())
merged.sort(key=lambda x: x["hybrid_score"], reverse=True)
```
-/

/-- The entry written for a dense result. -/
def mkDenseEntry (dw : ℚ) (r : RDoc) : RDoc :=
  { r with hybrid_score := some ((r.score_normalized.getD 0) * dw),
           dense_score := some r.score,
           sparse_score := some 0 }

/-- The in-place update applied when a sparse result hits an existing key. -/
def sparseHit (sw : ℚ) (r : RDoc) (e : RDoc) : RDoc :=
  { e with hybrid_score := some (e.hybrid_score.getD 0 + (r.score_normalized.getD 0) * sw),
           sparse_score := some r.score }

/-- The entry written for a sparse-only result. -/
def mkSparseEntry (sw : ℚ) (r : RDoc) : RDoc :=
  { r with hybrid_score := some ((r.score_normalized.getD 0) * sw),
           dense_score := some 0,
           sparse_score := some r.score }

def denseStep (dw : ℚ) (acc : List RDoc) (r : RDoc) : List RDoc :=
  dictSet (mkDenseEntry dw r) acc

def sparseStep (sw : ℚ) (acc : List RDoc) (r : RDoc) : List RDoc :=
  if dictMem r.id acc then dictModify r.id (sparseHit sw r) acc
  else dictSet (mkSparseEntry sw r) acc

/-- `combined.values()` for already-normalized inputs, in insertion order. -/
def combinedEntries (dw sw : ℚ) (dense_results sparse_results : List RDoc) : List RDoc :=
  sparse_results.foldl (sparseStep sw) (dense_results.foldl (denseStep dw) [])

/-- `HybridRetriever._merge_results`: normalize both sides, fuse into the
`combined` dict, and stably sort descending by `hybrid_score`. -/
def merge_results (dw sw : ℚ) (dense_results sparse_results : List RDoc) : List RDoc :=
  sortDesc (fun e => e.hybrid_score.getD 0)
    (combinedEntries dw sw (normalize_scores dense_results) (normalize_scores sparse_results))

/-! ## Key order of the `combined` dict -/

/-- Keep the first occurrence of each element (the order in which keys first
appear). -/
def dedupFirst : List String → List String
  | [] => []
  | x :: xs => x :: dedupFirst (xs.filter (fun s => s ≠ x))
termination_by l => l.length
decreasing_by
  simpa using Nat.lt_succ_of_le (List.length_filter_le _ xs)

theorem mem_dedupFirst (a : String) (l : List String) : a ∈ dedupFirst l ↔ a ∈ l := by
  induction l using dedupFirst.induct with
  | case1 => simp [dedupFirst]
  | case2 y ys ih =>
    rw [dedupFirst]
    rcases eq_or_ne a y with rfl | hxy
    · simp
    · rw [List.mem_cons, List.mem_cons, ih]
      simp [hxy, List.mem_filter]

theorem nodup_dedupFirst (l : List String) : (dedupFirst l).Nodup := by
  induction l using dedupFirst.induct with
  | case1 => simp [dedupFirst]
  | case2 y ys ih =>
    rw [dedupFirst]
    refine List.nodup_cons.mpr ⟨?_, ih⟩
    rw [mem_dedupFirst]
    simp [List.mem_filter]

theorem dedupFirst_eq_self : ∀ l : List String, l.Nodup → dedupFirst l = l := by
  intro l
  induction l using dedupFirst.induct with
  | case1 => simp [dedupFirst]
  | case2 y ys ih =>
    intro h
    rw [dedupFirst]
    rcases List.nodup_cons.mp h with ⟨hy, hys⟩
    have hfil : ys.filter (fun s => s ≠ y) = ys := by
      apply List.filter_eq_self.mpr
      intro a ha
      have hne : a ≠ y := fun hh => hy (hh ▸ ha)
      simp [hne]
    rw [hfil] at ih ⊢
    rw [ih hys]

/-- Key evolution of any fold whose step is an upsert on `r.id` (both the
dense and the sparse loop of `_merge_results` are). -/
theorem keys_fold (step : List RDoc → RDoc → List RDoc)
    (hstep : ∀ acc r, keys (step acc r) =
      if r.id ∈ keys acc then keys acc else keys acc ++ [r.id]) :
    ∀ (l : List RDoc) (acc : List RDoc),
      keys (l.foldl step acc) =
        keys acc ++ dedupFirst ((l.map (·.id)).filter (fun s => s ∉ keys acc)) := by
  intro l
  induction l with
  | nil => simp [dedupFirst]
  | cons r rest ih =>
    intro acc
    rw [List.foldl_cons, ih (step acc r), hstep acc r]
    by_cases hm : r.id ∈ keys acc
    · rw [if_pos hm]
      have : ((r :: rest).map (·.id)).filter (fun s => s ∉ keys acc) =
          (rest.map (·.id)).filter (fun s => s ∉ keys acc) := by
        simp [hm]
      rw [this]
    · rw [if_neg hm]
      have h1 : ((r :: rest).map (·.id)).filter (fun s => s ∉ keys acc) =
          r.id :: (rest.map (·.id)).filter (fun s => s ∉ keys acc) := by
        simp [hm]
      rw [h1, dedupFirst]
      have h2 : (rest.map (·.id)).filter (fun s => s ∉ keys acc ++ [r.id]) =
          ((rest.map (·.id)).filter (fun s => s ∉ keys acc)).filter
            (fun s => s ≠ r.id) := by
        rw [List.filter_filter]
        apply List.filter_congr
        intro a _
        simp only [List.mem_append, List.mem_singleton, not_or, ne_eq]
        rcases Decidable.em (a ∈ keys acc) with h | h <;>
          rcases Decidable.em (a = r.id) with h' | h' <;> simp [h, h']
      rw [h2, List.append_assoc]
      rfl

theorem keys_denseStep (dw : ℚ) (acc : List RDoc) (r : RDoc) :
    keys (denseStep dw acc r) =
      if r.id ∈ keys acc then keys acc else keys acc ++ [r.id] := by
  unfold denseStep
  rw [keys_dictSet]
  rfl

theorem keys_sparseStep (sw : ℚ) (acc : List RDoc) (r : RDoc) :
    keys (sparseStep sw acc r) =
      if r.id ∈ keys acc then keys acc else keys acc ++ [r.id] := by
  unfold sparseStep
  by_cases hm : dictMem r.id acc
  · rw [if_pos hm, if_pos ((dictMem_iff _ _).mp hm)]
    exact keys_dictModify r.id (sparseHit sw r) (fun e => rfl) acc
  · have hm' : r.id ∉ keys acc := fun h => hm ((dictMem_iff _ _).mpr h)
    have hid : (mkSparseEntry sw r).id = r.id := rfl
    rw [if_neg hm, keys_dictSet, hid, if_neg hm']

/-- The keys of the fused dict, in order: dense ids by first appearance,
followed by the sparse-only ids by first appearance. -/
theorem keys_combinedEntries (dw sw : ℚ) (dn sn : List RDoc) :
    keys (combinedEntries dw sw dn sn) =
      dedupFirst (dn.map (·.id)) ++
        dedupFirst ((sn.map (·.id)).filter (fun s => s ∉ dn.map (·.id))) := by
  unfold combinedEntries
  rw [keys_fold (sparseStep sw) (keys_sparseStep sw) sn,
      keys_fold (denseStep dw) (keys_denseStep dw) dn []]
  have hbase : keys ([] : List RDoc) = [] := rfl
  rw [hbase]
  simp only [List.nil_append, List.filter_nil]  -- normalize the base case
  have hfil : ∀ s, (s ∉ ([] : List String)) := by simp
  have h0 : (dn.map (·.id)).filter (fun s => s ∉ ([] : List String)) = dn.map (·.id) := by
    apply List.filter_eq_self.mpr
    intro a _
    simp
  rw [h0]
  congr 1
  apply congrArg
  apply List.filter_congr
  intro a _
  have : (a ∈ dedupFirst (dn.map (·.id))) ↔ a ∈ dn.map (·.id) := mem_dedupFirst _ _
  rcases Decidable.em (a ∈ dn.map (·.id)) with h | h <;> simp [h, this]

theorem nodup_keys_fold (step : List RDoc → RDoc → List RDoc)
    (hstep : ∀ acc r, keys (step acc r) =
      if r.id ∈ keys acc then keys acc else keys acc ++ [r.id]) :
    ∀ (l : List RDoc) (acc : List RDoc), (keys acc).Nodup → (keys (l.foldl step acc)).Nodup := by
  intro l
  induction l with
  | nil => intro acc h; exact h
  | cons r rest ih =>
    intro acc h
    rw [List.foldl_cons]
    apply ih
    rw [hstep]
    by_cases hm : r.id ∈ keys acc
    · rwa [if_pos hm]
    · rw [if_neg hm]
      simpa [List.nodup_append] using ⟨h, hm⟩

theorem nodup_keys_combinedEntries (dw sw : ℚ) (dn sn : List RDoc) :
    (keys (combinedEntries dw sw dn sn)).Nodup := by
  unfold combinedEntries
  apply nodup_keys_fold (sparseStep sw) (keys_sparseStep sw)
  apply nodup_keys_fold (denseStep dw) (keys_denseStep dw)
  simp [keys]

/-- Position of the first occurrence of `s` in `l` (`l.index(s)`-like; used
only to express "appears earlier"). -/
def rankIn (l : List String) (s : String) : ℕ :=
  match l with
  | [] => 0
  | x :: xs => if x = s then 0 else rankIn xs s + 1

/-- In a list whose keys are distinct, every entry strictly precedes the later
entries in first-occurrence rank. -/
theorem pairwise_rankIn (l : List RDoc) (h : (keys l).Nodup) :
    l.Pairwise (fun a b => rankIn (keys l) a.id < rankIn (keys l) b.id) := by
  induction l with
  | nil => simp
  | cons e es ih =>
    rw [keys_cons] at h
    rcases List.nodup_cons.mp h with ⟨he, hes⟩
    refine List.pairwise_cons.mpr ⟨?_, ?_⟩
    · intro b hb
      have hbid : b.id ∈ keys es := List.mem_map.mpr ⟨b, hb, rfl⟩
      have hbe : ¬ e.id = b.id := fun hh => he (hh ▸ hbid)
      simp [keys_cons, rankIn, hbe]
    · refine List.Pairwise.imp_of_mem ?_ (ih hes)
      intro a b ha hb hab
      have haid : a.id ∈ keys es := List.mem_map.mpr ⟨a, ha, rfl⟩
      have hbid : b.id ∈ keys es := List.mem_map.mpr ⟨b, hb, rfl⟩
      have hae : ¬ e.id = a.id := fun hh => he (hh ▸ haid)
      have hbe : ¬ e.id = b.id := fun hh => he (hh ▸ hbid)
      simpa [keys_cons, rankIn, hae, hbe] using hab

/-- C2, claim: the fused list is sorted descending by fused score, ties broken
stably by first-appearance order in the `combined` dict, whose key order is
the dense ids by first appearance followed by the sparse-only ids by first
appearance. -/
theorem merge_results_sorted_stable (dw sw : ℚ) (dense_results sparse_results : List RDoc) :
    (merge_results dw sw dense_results sparse_results).Pairwise
      (fun a b => b.hybrid_score.getD 0 ≤ a.hybrid_score.getD 0) ∧
    (merge_results dw sw dense_results sparse_results).Pairwise
      (fun a b => b.hybrid_score.getD 0 < a.hybrid_score.getD 0 ∨
        (a.hybrid_score.getD 0 = b.hybrid_score.getD 0 ∧
          rankIn (keys (combinedEntries dw sw (normalize_scores dense_results)
              (normalize_scores sparse_results))) a.id <
            rankIn (keys (combinedEntries dw sw (normalize_scores dense_results)
              (normalize_scores sparse_results))) b.id)) ∧
    keys (combinedEntries dw sw (normalize_scores dense_results)
        (normalize_scores sparse_results)) =
      dedupFirst (dense_results.map (·.id)) ++
        dedupFirst ((sparse_results.map (·.id)).filter
          (fun s => s ∉ dense_results.map (·.id))) := by
  refine ⟨sortDesc_sorted _ _, ?_, ?_⟩
  · exact sortDesc_pairwise_stable _ _ _
      (pairwise_rankIn _ (nodup_keys_combinedEntries dw sw _ _))
  · rw [keys_combinedEntries, normalize_scores_map_id, normalize_scores_map_id]

/-! ## Per-key characterization of the fused dict -/

/-- `combined.get(k)`: the first (hence, with distinct keys, the) entry whose
key is `k`. -/
def findEntry (k : String) : List RDoc → Option RDoc
  | [] => none
  | e :: es => if e.id = k then some e else findEntry k es

theorem findEntry_eq_none (k : String) (l : List RDoc) :
    findEntry k l = none ↔ k ∉ keys l := by
  induction l with
  | nil => simp [findEntry, keys]
  | cons e es ih =>
    by_cases h : e.id = k
    · simp [findEntry, h, keys_cons]
    · have : ¬ k = e.id := fun hh => h hh.symm
      simp [findEntry, h, keys_cons, ih, this]

theorem findEntry_of_mem_nodup (l : List RDoc) (e : RDoc)
    (hnd : (keys l).Nodup) (he : e ∈ l) : findEntry e.id l = some e := by
  induction l with
  | nil => simp at he
  | cons x xs ih =>
    rw [keys_cons] at hnd
    rcases List.nodup_cons.mp hnd with ⟨hx, hxs⟩
    rcases List.mem_cons.mp he with rfl | he'
    · simp [findEntry]
    · have hne : ¬ x.id = e.id := fun hh => hx (hh ▸ List.mem_map.mpr ⟨e, he', rfl⟩)
      simp [findEntry, hne, ih hxs he']

theorem findEntry_map (k : String) (f : RDoc → RDoc) (hf : ∀ e, (f e).id = e.id)
    (l : List RDoc) : findEntry k (l.map f) = (findEntry k l).map f := by
  induction l with
  | nil => simp [findEntry]
  | cons e es ih =>
    by_cases h : e.id = k
    · simp [findEntry, hf, h]
    · simp [findEntry, hf, h, ih]

theorem findEntry_dictModify_self (k : String) (f : RDoc → RDoc)
    (hf : ∀ e, (f e).id = e.id) (l : List RDoc) :
    findEntry k (dictModify k f l) = (findEntry k l).map f := by
  induction l with
  | nil => simp [findEntry, dictModify]
  | cons e es ih =>
    by_cases h : e.id = k
    · simp [dictModify, findEntry, h, hf]
    · simp [dictModify, findEntry, h, ih]

theorem findEntry_dictModify_ne (k k' : String) (hk : k' ≠ k) (f : RDoc → RDoc)
    (hf : ∀ e, (f e).id = e.id) (l : List RDoc) :
    findEntry k' (dictModify k f l) = findEntry k' l := by
  induction l with
  | nil => simp [findEntry, dictModify]
  | cons e es ih =>
    by_cases h : e.id = k
    · have : ¬ (f e).id = k' := by
        rw [hf, h]
        exact fun hh => hk hh.symm
      have h2 : ¬ e.id = k' := by
        rw [h]
        exact fun hh => hk hh.symm
      have h4 : ¬ k = k' := fun hh => hk hh.symm
      simp [dictModify, findEntry, h, this, h2, h4]
    · simp [dictModify, findEntry, h, ih]

theorem findEntry_dictSet_self (v : RDoc) (k : String) (hk : v.id = k) (l : List RDoc) :
    findEntry k (dictSet v l) = some v := by
  induction l with
  | nil => simp [findEntry, dictSet, hk]
  | cons e es ih =>
    by_cases h : e.id = v.id
    · simp [dictSet, findEntry, h, hk]
    · have : ¬ e.id = k := fun hh => h (hh.trans hk.symm)
      simp [dictSet, findEntry, h, this, ih]

theorem findEntry_dictSet_ne (v : RDoc) (k : String) (hk : v.id ≠ k) (l : List RDoc) :
    findEntry k (dictSet v l) = findEntry k l := by
  induction l with
  | nil => simp [findEntry, dictSet, hk]
  | cons e es ih =>
    by_cases h : e.id = v.id
    · have h2 : ¬ v.id = k := hk
      have h3 : ¬ e.id = k := fun hh => hk (h ▸ hh)
      simp [dictSet, findEntry, h, h2, h3]
    · simp [dictSet, findEntry, h, ih]

theorem dictMem_eq_isSome (k : String) (l : List RDoc) :
    dictMem k l = (findEntry k l).isSome := by
  induction l with
  | nil => simp [dictMem, findEntry]
  | cons e es ih =>
    by_cases h : e.id = k
    · simp [dictMem, findEntry, h]
    · simp only [dictMem, List.any_cons] at *
      simp [findEntry, h, ih, dictMem]

/-- What the sparse loop of `_merge_results` does to each key `k`, for
*arbitrary* inputs (no distinctness of ids assumed): every sparse result
whose id is `k` applies `sparseHit` in order — accumulating its weighted
normalized score onto the fused score and overwriting `sparse_score`; if the
key was absent, the first such result instead creates the `mkSparseEntry`;
other keys are untouched. -/
theorem findEntry_sparseFold (sw : ℚ) :
    ∀ (sn : List RDoc) (acc : List RDoc) (k : String),
      findEntry k (sn.foldl (sparseStep sw) acc) =
        match findEntry k acc with
        | some e => some ((sn.filter (fun r => r.id = k)).foldl
            (fun e r => sparseHit sw r e) e)
        | none =>
          match sn.filter (fun r => r.id = k) with
          | [] => none
          | h1 :: hrest => some (hrest.foldl (fun e r => sparseHit sw r e)
              (mkSparseEntry sw h1)) := by
  intro sn
  induction sn with
  | nil =>
    intro acc k
    rw [List.foldl_nil]
    rcases h : findEntry k acc with _ | e <;> simp [h]
  | cons r rest ih =>
    intro acc k
    rw [List.foldl_cons, ih]
    by_cases hrk : r.id = k
    · subst hrk
      have hfil : (r :: rest).filter (fun x => x.id = r.id) =
          r :: rest.filter (fun x => x.id = r.id) := by simp
      rw [hfil]
      by_cases hm : dictMem r.id acc
      · have hsome : (findEntry r.id acc).isSome := by rw [← dictMem_eq_isSome]; exact hm
        rcases Option.isSome_iff_exists.mp hsome with ⟨e, he⟩
        have hstep : sparseStep sw acc r = dictModify r.id (sparseHit sw r) acc := by
          simp [sparseStep, hm]
        rw [hstep, findEntry_dictModify_self r.id (sparseHit sw r) (fun e => rfl) acc, he]
        simp
      · have hnone : findEntry r.id acc = none := by
          cases hfe : findEntry r.id acc with
          | none => rfl
          | some e =>
            exfalso
            apply hm
            rw [dictMem_eq_isSome, hfe]
            rfl
        have hstep : sparseStep sw acc r = dictSet (mkSparseEntry sw r) acc := by
          simp [sparseStep, hm]
        rw [hstep, findEntry_dictSet_self (mkSparseEntry sw r) r.id rfl acc, hnone]
    · have hfil : (r :: rest).filter (fun x => x.id = k) =
          rest.filter (fun x => x.id = k) := by simp [hrk]
      have hacc : findEntry k (sparseStep sw acc r) = findEntry k acc := by
        unfold sparseStep
        by_cases hm : dictMem r.id acc
        · rw [if_pos hm]
          exact findEntry_dictModify_ne r.id k (fun hh => hrk hh.symm)
            (sparseHit sw r) (fun e => rfl) acc
        · rw [if_neg hm]
          exact findEntry_dictSet_ne (mkSparseEntry sw r) k hrk acc
      rw [hacc, hfil]

/-- The dense loop over distinct-keyed dense results builds exactly the list
of dense entries, in order. -/
theorem denseFold_eq (dw : ℚ) :
    ∀ (dn : List RDoc) (acc : List RDoc), (dn.map (·.id)).Nodup →
      (∀ r ∈ dn, r.id ∉ keys acc) →
      dn.foldl (denseStep dw) acc = acc ++ dn.map (mkDenseEntry dw) := by
  intro dn
  induction dn with
  | nil => intro acc _ _; simp
  | cons r rest ih =>
    intro acc hnd hfresh
    rw [List.map_cons] at hnd
    rcases List.nodup_cons.mp hnd with ⟨hr, hrest⟩
    have hstep : denseStep dw acc r = acc ++ [mkDenseEntry dw r] := by
      unfold denseStep
      exact dictSet_of_not_mem _ acc (hfresh r (List.mem_cons_self r rest))
    rw [List.foldl_cons, hstep, ih (acc ++ [mkDenseEntry dw r]) hrest ?_]
    · simp
    · intro r' hr'
      have h1 : r'.id ∉ keys acc := hfresh r' (List.mem_cons_of_mem r hr')
      have h2 : r'.id ≠ r.id := by
        intro hh
        exact hr (hh ▸ List.mem_map.mpr ⟨r', hr', rfl⟩)
      simp only [keys, List.map_append, List.mem_append, not_or]
      refine ⟨by simpa [keys] using h1, ?_⟩
      simpa using h2

/-- `combined[k]` after the dense loop holds the entry built from the *last*
dense result with id `k`: `combined[doc_id] = result.copy()` replaces the
value in place, so later dense results overwrite earlier ones sharing a key. -/
def findLastEntry (k : String) : List RDoc → Option RDoc
  | [] => none
  | e :: es =>
    match findLastEntry k es with
    | some r => some r
    | none => if e.id = k then some e else none

theorem findEntry_denseFold (dw : ℚ) :
    ∀ (dn : List RDoc) (acc : List RDoc) (k : String),
      findEntry k (dn.foldl (denseStep dw) acc) =
        match findLastEntry k dn with
        | some r => some (mkDenseEntry dw r)
        | none => findEntry k acc := by
  intro dn
  induction dn with
  | nil =>
    intro acc k
    rw [List.foldl_nil]
    simp [findLastEntry]
  | cons r rest ih =>
    intro acc k
    rw [List.foldl_cons, ih]
    cases hl : findLastEntry k rest with
    | some d => simp [findLastEntry, hl]
    | none =>
      by_cases hrk : r.id = k
      · have hstep : findEntry k (denseStep dw acc r) = some (mkDenseEntry dw r) :=
          findEntry_dictSet_self (mkDenseEntry dw r) k hrk acc
        simp [findLastEntry, hl, hrk, hstep]
      · have hstep : findEntry k (denseStep dw acc r) = findEntry k acc :=
          findEntry_dictSet_ne (mkDenseEntry dw r) k hrk acc
        simp [findLastEntry, hl, hrk, hstep]

/-- Repeated `sparseHit`s add the weighted normalized score of each hit onto
the fused score. -/
theorem foldl_sparseHit_hybrid (sw : ℚ) :
    ∀ (hits : List RDoc) (e0 : RDoc) (h0 : ℚ), e0.hybrid_score = some h0 →
      (hits.foldl (fun e r => sparseHit sw r e) e0).hybrid_score =
        some (h0 + (hits.map (fun r => r.score_normalized.getD 0)).sum * sw) := by
  intro hits
  induction hits with
  | nil =>
    intro e0 h0 h
    simp [h]
  | cons r hs ih =>
    intro e0 h0 h
    rw [List.foldl_cons]
    have hh : (sparseHit sw r e0).hybrid_score =
        some (h0 + r.score_normalized.getD 0 * sw) := by
      simp [sparseHit, h]
    rw [ih (sparseHit sw r e0) _ hh]
    rw [List.map_cons, List.sum_cons]
    congr 1
    ring

/-- The dense-side normalized value the merge uses for key `k`: the
`score_normalized` written on the **last** dense result with that id (`0`
when the key is absent from the dense side, and also `0` when normalization
was skipped so no `score_normalized` key exists). -/
def dnormLast (results : List RDoc) (k : String) : ℚ :=
  match findLastEntry k results with
  | some r => r.score_normalized.getD 0
  | none => 0

/-- The sparse-side contribution the merge accumulates for key `k`: the sum
of the written normalized scores over **all** sparse results with that id
(`0` when the key is absent from the sparse side; duplicates compound). -/
def snormSum (results : List RDoc) (k : String) : ℚ :=
  ((results.filter (fun r => r.id = k)).map (fun r => r.score_normalized.getD 0)).sum

/-- Modelled from the spec: §4.1 `ScoreNormalizer` applied to a bare score
list — min-max scaling, with the scores returned *unchanged* when
`max == min`.  This is the spec's reading of "normalized score", kept separate
from the code's `normalize_scores` so the two can be compared. -/
def specMinMaxNormalize (scores : List ℚ) : List ℚ :=
  if listMax scores = listMin scores then scores
  else scores.map (fun s => (s - listMin scores) / (listMax scores - listMin scores))

theorem foldl_sparseHit_id (sw : ℚ) :
    ∀ (hits : List RDoc) (e0 : RDoc),
      (hits.foldl (fun e r => sparseHit sw r e) e0).id = e0.id := by
  intro hits
  induction hits with
  | nil => intro e0; rfl
  | cons r hs ih =>
    intro e0
    rw [List.foldl_cons, ih]
    rfl

/-- C1, amended: for every pair of result lists (no distinctness of ids
assumed), each distinct value of `result.get("id", "")` appearing in either
list yields exactly one fused entry — an id is never dropped, but results
sharing an id are collapsed onto one entry: the entry data come from the
last dense result with that id, and in a real `retrieve` call, where
`_format_results` has stripped the `id` key, *all* results share the id `""`
and collapse to a single entry.  That entry's fused score is
`normalizedDense * denseWeight + normalizedSparse * sparseWeight`, where the
dense value is the `score_normalized` written on the last dense result with
that id (`0` when the id is absent from the dense side, or when dense
normalization was skipped because all dense scores were equal) and the
sparse value is the *sum* of written normalized scores over all sparse
results with that id (`0` when absent; compounded over duplicates). -/
theorem merge_fused_scores (dw sw : ℚ) (dense_results sparse_results : List RDoc) :
    (∀ i : String, i ∈ (merge_results dw sw dense_results sparse_results).map (·.id) ↔
        (i ∈ dense_results.map (·.id) ∨ i ∈ sparse_results.map (·.id))) ∧
    ((merge_results dw sw dense_results sparse_results).map (·.id)).Nodup ∧
    (∀ e ∈ merge_results dw sw dense_results sparse_results,
        e.hybrid_score = some (dnormLast (normalize_scores dense_results) e.id * dw +
          snormSum (normalize_scores sparse_results) e.id * sw)) := by
  have hperm : (merge_results dw sw dense_results sparse_results).Perm
      (combinedEntries dw sw (normalize_scores dense_results)
        (normalize_scores sparse_results)) := sortDesc_perm _ _
  refine ⟨?_, ?_, ?_⟩
  · intro i
    have hmem : i ∈ (merge_results dw sw dense_results sparse_results).map (·.id) ↔
        i ∈ keys (combinedEntries dw sw (normalize_scores dense_results)
          (normalize_scores sparse_results)) := (hperm.map (·.id)).mem_iff
    rw [hmem, keys_combinedEntries, normalize_scores_map_id, normalize_scores_map_id]
    rw [List.mem_append, mem_dedupFirst, mem_dedupFirst, List.mem_filter]
    constructor
    · rintro (h | ⟨h, -⟩)
      · exact Or.inl h
      · exact Or.inr h
    · rintro (h | h)
      · exact Or.inl h
      · by_cases hd : i ∈ dense_results.map (·.id)
        · exact Or.inl hd
        · exact Or.inr ⟨h, by simpa using hd⟩
  · have h := nodup_keys_combinedEntries dw sw (normalize_scores dense_results)
      (normalize_scores sparse_results)
    unfold keys at h
    exact (hperm.map (·.id)).nodup_iff.mpr h
  · intro e he
    have he' : e ∈ combinedEntries dw sw (normalize_scores dense_results)
        (normalize_scores sparse_results) := hperm.mem_iff.mp he
    have hfe : findEntry e.id (combinedEntries dw sw (normalize_scores dense_results)
        (normalize_scores sparse_results)) = some e :=
      findEntry_of_mem_nodup _ e (nodup_keys_combinedEntries dw sw _ _) he'
    unfold combinedEntries at hfe
    rw [findEntry_sparseFold sw _ _ e.id,
        findEntry_denseFold dw _ [] e.id] at hfe
    cases hd : findLastEntry e.id (normalize_scores dense_results) with
    | some d =>
      rw [hd] at hfe
      dsimp only at hfe
      injection hfe with heq
      have hhyb : e.hybrid_score =
          (((normalize_scores sparse_results).filter (fun r => r.id = e.id)).foldl
            (fun e r => sparseHit sw r e) (mkDenseEntry dw d)).hybrid_score := by
        rw [heq]
      rw [hhyb, foldl_sparseHit_hybrid sw _ (mkDenseEntry dw d)
        (d.score_normalized.getD 0 * dw) (by simp [mkDenseEntry])]
      simp [dnormLast, hd, snormSum]
    | none =>
      rw [hd] at hfe
      dsimp only [findEntry] at hfe
      cases hfil : (normalize_scores sparse_results).filter (fun r => r.id = e.id) with
      | nil =>
        rw [hfil] at hfe
        exact Option.noConfusion hfe
      | cons h1 hrest =>
        rw [hfil] at hfe
        dsimp only at hfe
        injection hfe with heq
        have hhyb : e.hybrid_score =
            (hrest.foldl (fun e r => sparseHit sw r e)
              (mkSparseEntry sw h1)).hybrid_score := by
          rw [heq]
        rw [hhyb, foldl_sparseHit_hybrid sw hrest (mkSparseEntry sw h1)
          (h1.score_normalized.getD 0 * sw) (by simp [mkSparseEntry])]
        rw [Option.some.injEq]
        rw [show dnormLast (normalize_scores dense_results) e.id = 0 by
          simp [dnormLast, hd]]
        rw [show snormSum (normalize_scores sparse_results) e.id =
            h1.score_normalized.getD 0 +
              (hrest.map (fun r => r.score_normalized.getD 0)).sum by
          simp [snormSum, hfil]]
        ring

/-- Witness for `merge_fused_scores` at concrete inputs. -/
theorem merge_fused_scores_witness :
    "a" ∈ (merge_results (7/10) (3/10)
        [{ id := "a", score := 1 }, { id := "b", score := 3 }]
        [{ id := "b", score := 5 }]).map (·.id) ↔
      ("a" ∈ ([{ id := "a", score := 1 }, { id := "b", score := 3 }] : List RDoc).map (·.id) ∨
       "a" ∈ ([{ id := "b", score := 5 }] : List RDoc).map (·.id)) :=
  (merge_fused_scores (7/10) (3/10)
    [{ id := "a", score := 1 }, { id := "b", score := 3 }]
    [{ id := "b", score := 5 }]).1 "a"

/-- Counterexample to C1 as stated, on both counts.  (a) With a single dense
result (all dense scores equal, so the §4.1 normalizer would return the raw
score unchanged) the code fuses to `0`, not to
`normalizedDenseScore * denseWeight = 9/10 * 7/10`.  (b) Two dense results
that, like every result a real `retrieve` call feeds to `_merge_results`
after `_format_results` stripped the `id` key, both carry
`result.get("id","") = ""`: the merge collapses them onto one entry keyed
`""` retaining only the second text, so a chunk is excluded. -/
theorem merge_fused_scores_counterexample :
    (merge_results (7/10) (3/10) [{ id := "a", score := 9/10 }] []).map
        (fun e => e.hybrid_score.getD 0) = [0] ∧
    specMinMaxNormalize (([{ id := "a", score := 9/10 }] : List RDoc).map (·.score)) =
      [9/10] ∧
    ((9/10 : ℚ) * (7/10) + 0 * (3/10) ≠ 0) ∧
    (merge_results (7/10) (3/10)
        [{ id := "", text := "t1", score := 3 }, { id := "", text := "t2", score := 1 }]
        []).map (·.text) = ["t2"] ∧
    (["t2"] : List String) ≠ ["t1", "t2"] := by
  refine ⟨?_, ?_, by norm_num, ?_, by decide⟩
  · show (sortDesc (fun e => e.hybrid_score.getD 0)
        (combinedEntries (7/10) (3/10)
          (normalize_scores [{ id := "a", score := 9/10 }])
          (normalize_scores []))).map (fun e => e.hybrid_score.getD 0) = [0]
    have hn : normalize_scores [{ id := "a", score := 9/10 }] =
        [{ id := "a", score := 9/10 }] := by
      unfold normalize_scores
      norm_num [listMin, listMax]
    rw [hn]
    show (sortDesc (fun e => e.hybrid_score.getD 0)
        [mkDenseEntry (7/10) { id := "a", score := 9/10 }]).map
          (fun e => e.hybrid_score.getD 0) = [0]
    norm_num [sortDesc, insertDesc, mkDenseEntry]
  · unfold specMinMaxNormalize
    norm_num [listMin, listMax]
  · show (sortDesc (fun e => e.hybrid_score.getD 0)
        (combinedEntries (7/10) (3/10)
          (normalize_scores
            [{ id := "", text := "t1", score := 3 }, { id := "", text := "t2", score := 1 }])
          (normalize_scores []))).map (·.text) = ["t2"]
    have hn : normalize_scores
        [{ id := "", text := "t1", score := 3 }, { id := "", text := "t2", score := 1 }] =
        [{ id := "", text := "t1", score := 3, score_normalized := some 1 },
         { id := "", text := "t2", score := 1, score_normalized := some 0 }] := by
      unfold normalize_scores
      norm_num [listMin, listMax, List.foldl, min_def, max_def]
    rw [hn]
    rfl

theorem listMin_le_listMax (l : List ℚ) (h : l ≠ []) : listMin l ≤ listMax l := by
  cases l with
  | nil => exact absurd rfl h
  | cons x xs =>
    exact le_trans (listMin_le _ x (List.mem_cons_self x xs))
      (le_listMax _ x (List.mem_cons_self x xs))

theorem dictModify_map {β : Type} (k : String) (f : RDoc → RDoc) (g : RDoc → β)
    (hg : ∀ e, g (f e) = g e) (l : List RDoc) :
    (dictModify k f l).map g = l.map g := by
  induction l with
  | nil => rfl
  | cons e es ih =>
    by_cases h : e.id = k
    · simp [dictModify, h, hg]
    · simp [dictModify, h, ih]

/-- With `sparse_weight = 0` and every sparse id already present, the sparse
loop changes no key and no fused score. -/
theorem sparseFold_zero (sn : List RDoc) :
    ∀ acc, (∀ r ∈ sn, r.id ∈ keys acc) →
      (sn.foldl (sparseStep 0) acc).map (fun e => (e.id, e.hybrid_score.getD 0)) =
        acc.map (fun e => (e.id, e.hybrid_score.getD 0)) := by
  induction sn with
  | nil => intro acc _; rfl
  | cons r rest ih =>
    intro acc hmem
    have hm : dictMem r.id acc = true :=
      (dictMem_iff _ _).mpr (hmem r (List.mem_cons_self r rest))
    have hstep : sparseStep 0 acc r = dictModify r.id (sparseHit 0 r) acc := by
      simp [sparseStep, hm]
    rw [List.foldl_cons, hstep, ih _ ?_]
    · exact dictModify_map r.id (sparseHit 0 r) _
        (fun e => by simp [sparseHit, mul_zero, add_zero]) acc
    · intro r' hr'
      rw [keys_dictModify r.id (sparseHit 0 r) (fun e => rfl) acc]
      exact hmem r' (List.mem_cons_of_mem r hr')

/-- C4, amended: with `denseWeight = 1, sparseWeight = 0`, the hybrid merge
degenerates to the dense ranking *only when the dense results carry distinct
ids*: for dense results in descending score order with distinct ids and no
pre-existing `score_normalized` key, and sparse results drawn from the dense
candidates, the fused list is exactly the dense ranking, and whenever the
dense scores are not all equal the fused scores equal the min-max-normalized
dense scores.  Both restrictions are forced by the counterexample: when all
dense scores are equal the fused scores are all `0`, not the unchanged raw
scores; and in an actual `retrieve` call `_format_results` has stripped the
`id` key, every dense result keys to `""`, and the merge collapses them to a
single entry — not the dense ranking. -/
theorem hybrid_dense_only_degenerates (dense_results sparse_results : List RDoc)
    (hsorted : dense_results.Pairwise (fun a b => b.score ≤ a.score))
    (hnd : (dense_results.map (·.id)).Nodup)
    (hclean : ∀ r ∈ dense_results, r.score_normalized = none)
    (hsub : ∀ r ∈ sparse_results, r.id ∈ dense_results.map (·.id)) :
    (merge_results 1 0 dense_results sparse_results).map (·.id) =
      dense_results.map (·.id) ∧
    (listMin (dense_results.map (·.score)) < listMax (dense_results.map (·.score)) →
      (merge_results 1 0 dense_results sparse_results).map
          (fun e => e.hybrid_score.getD 0) =
        specMinMaxNormalize (dense_results.map (·.score))) := by
  have h1' : ((normalize_scores dense_results).map (·.id)).Nodup := by
    rw [normalize_scores_map_id]; exact hnd
  -- the dense loop produces the dense entries in order
  have hdense : (normalize_scores dense_results).foldl (denseStep 1) [] =
      (normalize_scores dense_results).map (mkDenseEntry 1) := by
    rw [denseFold_eq 1 _ [] h1' (by intro r _; simp [keys])]
    rfl
  -- keys of the dense entries are the dense ids
  have hkeysdense : keys ((normalize_scores dense_results).map (mkDenseEntry 1)) =
      dense_results.map (·.id) := by
    unfold keys
    rw [List.map_map]
    have : ((fun e : RDoc => e.id) ∘ mkDenseEntry 1) = (fun e : RDoc => e.id) := rfl
    rw [this, ← normalize_scores_map_id dense_results]
  -- the sparse loop is invisible on (id, fused score) pairs
  have hpairs : (combinedEntries 1 0 (normalize_scores dense_results)
        (normalize_scores sparse_results)).map (fun e => (e.id, e.hybrid_score.getD 0)) =
      ((normalize_scores dense_results).map (mkDenseEntry 1)).map
        (fun e => (e.id, e.hybrid_score.getD 0)) := by
    unfold combinedEntries
    rw [hdense]
    apply sparseFold_zero
    intro r hr
    rw [hkeysdense]
    have : r.id ∈ (normalize_scores sparse_results).map (·.id) :=
      List.mem_map.mpr ⟨r, hr, rfl⟩
    rw [normalize_scores_map_id] at this
    rcases List.mem_map.mp this with ⟨s, hsmem, hsid⟩
    exact hsid ▸ hsub s hsmem
  -- the fused pairs are the normalized dense scores in order
  have hpairs2 : ((normalize_scores dense_results).map (mkDenseEntry 1)).map
        (fun e => (e.id, e.hybrid_score.getD 0)) =
      (normalize_scores dense_results).map
        (fun r => (r.id, r.score_normalized.getD 0)) := by
    rw [List.map_map]
    apply List.map_congr_left
    intro r _
    simp [mkDenseEntry, mul_one]
  -- the normalized dense scores are descending
  have hdesc : (normalize_scores dense_results).Pairwise
      (fun a b => b.score_normalized.getD 0 ≤ a.score_normalized.getD 0) := by
    by_cases hempty : dense_results.isEmpty
    · rw [List.isEmpty_iff] at hempty
      subst hempty
      simp [normalize_scores]
    · by_cases hdeg : listMax (dense_results.map (·.score)) =
          listMin (dense_results.map (·.score))
      · have : normalize_scores dense_results = dense_results := by
          unfold normalize_scores
          simp [hempty, hdeg]
        rw [this]
        refine List.Pairwise.imp_of_mem ?_ hsorted
        intro a b ha hb _
        rw [hclean a ha, hclean b hb]
      · have hform : normalize_scores dense_results = dense_results.map (fun r =>
            { r with score_normalized := some ((r.score -
                listMin (dense_results.map (·.score))) /
              (listMax (dense_results.map (·.score)) -
                listMin (dense_results.map (·.score)))) }) := by
          unfold normalize_scores
          simp [hempty, hdeg]
        have hpos : 0 < listMax (dense_results.map (·.score)) -
            listMin (dense_results.map (·.score)) := by
          have hne : dense_results.map (·.score) ≠ [] := by
            cases dense_results with
            | nil => exact (hempty rfl).elim
            | cons x xs => simp
          rcases lt_or_eq_of_le (listMin_le_listMax _ hne) with h | h
          · exact sub_pos.mpr h
          · exact absurd h.symm hdeg
        rw [hform, List.pairwise_map]
        refine hsorted.imp_of_mem ?_
        intro a b _ _ hab
        dsimp only
        rw [Option.getD_some, Option.getD_some]
        exact (div_le_div_iff_of_pos_right hpos).mpr (sub_le_sub_right hab _)
  -- the combined entries are already descending in fused score
  have hcombdesc : (combinedEntries 1 0 (normalize_scores dense_results)
        (normalize_scores sparse_results)).Pairwise
      (fun a b => b.hybrid_score.getD 0 ≤ a.hybrid_score.getD 0) := by
    have hmapped : ((combinedEntries 1 0 (normalize_scores dense_results)
          (normalize_scores sparse_results)).map
            (fun e => (e.id, e.hybrid_score.getD 0))).Pairwise
        (fun p q => q.2 ≤ p.2) := by
      rw [hpairs, hpairs2, List.pairwise_map]
      refine hdesc.imp ?_
      intro a b hab
      exact hab
    rw [List.pairwise_map] at hmapped
    exact hmapped
  have hsorteq : merge_results 1 0 dense_results sparse_results =
      combinedEntries 1 0 (normalize_scores dense_results)
        (normalize_scores sparse_results) :=
    sortDesc_eq_self _ _ hcombdesc
  constructor
  · rw [hsorteq]
    have hproj : (combinedEntries 1 0 (normalize_scores dense_results)
          (normalize_scores sparse_results)).map (·.id) =
        ((combinedEntries 1 0 (normalize_scores dense_results)
          (normalize_scores sparse_results)).map
            (fun e => (e.id, e.hybrid_score.getD 0))).map Prod.fst := by
      rw [List.map_map]
      rfl
    rw [hproj, hpairs, hpairs2, List.map_map]
    have : (Prod.fst ∘ fun r : RDoc => (r.id, r.score_normalized.getD 0)) =
        (fun r : RDoc => r.id) := rfl
    rw [this, normalize_scores_map_id]
  · intro hlt
    have hdeg : ¬ listMax (dense_results.map (·.score)) =
        listMin (dense_results.map (·.score)) :=
      fun h => absurd (h ▸ hlt) (lt_irrefl _)
    have hempty : ¬ dense_results.isEmpty := by
      intro h
      rw [List.isEmpty_iff] at h
      subst h
      simp [listMin, listMax] at hlt
    have hform : normalize_scores dense_results = dense_results.map (fun r =>
        { r with score_normalized := some ((r.score -
            listMin (dense_results.map (·.score))) /
          (listMax (dense_results.map (·.score)) -
            listMin (dense_results.map (·.score)))) }) := by
      unfold normalize_scores
      simp [hempty, hdeg]
    rw [hsorteq]
    have hproj : (combinedEntries 1 0 (normalize_scores dense_results)
          (normalize_scores sparse_results)).map (fun e => e.hybrid_score.getD 0) =
        ((combinedEntries 1 0 (normalize_scores dense_results)
          (normalize_scores sparse_results)).map
            (fun e => (e.id, e.hybrid_score.getD 0))).map Prod.snd := by
      rw [List.map_map]
      rfl
    rw [hproj, hpairs, hpairs2, List.map_map, hform, List.map_map]
    unfold specMinMaxNormalize
    rw [if_neg hdeg, List.map_map]
    apply List.map_congr_left
    intro r _
    simp

/-- Witness for `hybrid_dense_only_degenerates` at concrete inputs. -/
theorem hybrid_dense_only_degenerates_witness :
    (merge_results 1 0 [{ id := "a", score := 3 }, { id := "b", score := 1 }]
        [{ id := "b", score := 4 }]).map (·.id) =
      ([{ id := "a", score := 3 }, { id := "b", score := 1 }] : List RDoc).map (·.id) :=
  (hybrid_dense_only_degenerates
    [{ id := "a", score := 3 }, { id := "b", score := 1 }]
    [{ id := "b", score := 4 }]
    (by decide) (by decide) (by decide) (by decide)).1

/-- Counterexample to C4 as stated, on both counts.  (a) For a single dense
result the fused score is `0`, while the dense retriever alone, min-max
normalized per §4.1, keeps the raw score `9/10`: the rankings agree but the
scores differ.  (b) With `denseWeight = 1, sparseWeight = 0` and two dense
candidates carrying `result.get("id","") = ""` — as every candidate does in
a real call, `_format_results` having stripped the `id` key — the merge
returns a single collapsed entry, not the two-element dense ranking. -/
theorem hybrid_dense_only_counterexample :
    (merge_results 1 0 [{ id := "a", score := 9/10 }] []).map
        (fun e => e.hybrid_score.getD 0) = [0] ∧
    specMinMaxNormalize (([{ id := "a", score := 9/10 }] : List RDoc).map (·.score)) =
      [9/10] ∧
    (([0] : List ℚ) ≠ [9/10]) ∧
    (merge_results 1 0
        [{ id := "", text := "d1", score := 3 }, { id := "", text := "d2", score := 1 }]
        []).map (·.text) = ["d2"] ∧
    (["d2"] : List String) ≠ ["d1", "d2"] := by
  refine ⟨?_, ?_, by norm_num, ?_, by decide⟩
  case refine_3 =>
    show (sortDesc (fun e => e.hybrid_score.getD 0)
        (combinedEntries 1 0
          (normalize_scores
            [{ id := "", text := "d1", score := 3 }, { id := "", text := "d2", score := 1 }])
          (normalize_scores []))).map (·.text) = ["d2"]
    have hn : normalize_scores
        [{ id := "", text := "d1", score := 3 }, { id := "", text := "d2", score := 1 }] =
        [{ id := "", text := "d1", score := 3, score_normalized := some 1 },
         { id := "", text := "d2", score := 1, score_normalized := some 0 }] := by
      unfold normalize_scores
      norm_num [listMin, listMax, List.foldl, min_def, max_def]
    rw [hn]
    rfl
  · show (sortDesc (fun e => e.hybrid_score.getD 0)
        (combinedEntries 1 0
          (normalize_scores [{ id := "a", score := 9/10 }])
          (normalize_scores []))).map (fun e => e.hybrid_score.getD 0) = [0]
    have hn : normalize_scores [{ id := "a", score := 9/10 }] =
        [{ id := "a", score := 9/10 }] := by
      unfold normalize_scores
      norm_num [listMin, listMax]
    rw [hn]
    show (sortDesc (fun e => e.hybrid_score.getD 0)
        [mkDenseEntry 1 { id := "a", score := 9/10 }]).map
          (fun e => e.hybrid_score.getD 0) = [0]
    norm_num [sortDesc, insertDesc, mkDenseEntry]
  · unfold specMinMaxNormalize
    norm_num [listMin, listMax]

/-! ## Query validation and result formatting (`base_retriever.py`)

```python
def _validate_query(self, query):
    if not query or not query.strip():
        raise ValueError("Query cannot be empty")
    if len(query) > 1000:
        raise ValueError("Query too long (max 1000 characters)")
```
`not query or not query.strip()` holds exactly when every character is
whitespace (including the empty string).  A raised `ValueError` is modelled
as `some message`. -/

/-- Python `str` whitespace: the characters for which `str.isspace()` holds,
which is exactly the set used by `str.strip()`, `str.split()` and the regex
class `\s` on `str` patterns: `\t\n\v\f\r` (U+0009-U+000D), the
separators U+001C-U+001F, the space U+0020, NEL U+0085, NBSP U+00A0, OGHAM
SPACE MARK U+1680, the typographic spaces U+2000-U+200A, LINE SEPARATOR
U+2028, PARAGRAPH SEPARATOR U+2029, NARROW NBSP U+202F, MEDIUM MATHEMATICAL
SPACE U+205F and IDEOGRAPHIC SPACE U+3000. -/
def isPyWs (c : Char) : Bool :=
  (9 ≤ c.toNat ∧ c.toNat ≤ 13) ∨ (28 ≤ c.toNat ∧ c.toNat ≤ 31) ∨
    c.toNat = 32 ∨ c.toNat = 133 ∨ c.toNat = 160 ∨ c.toNat = 0x1680 ∨
    (0x2000 ≤ c.toNat ∧ c.toNat ≤ 0x200a) ∨ c.toNat = 0x2028 ∨
    c.toNat = 0x2029 ∨ c.toNat = 0x202f ∨ c.toNat = 0x205f ∨ c.toNat = 0x3000

def validate_query (q : String) : Option String :=
  if q.data.all isPyWs then some "Query cannot be empty"
  else if q.length > 1000 then some "Query too long (max 1000 characters)"
  else none

/-- `BaseRetriever._format_results`: rebuild each result dict with exactly the
keys `text`, `score`, `video_id`, `chunk_id`, `metadata` (all other keys of
the input dict, `id` and the score sub-fields included, are absent from the
fresh dict). -/
def format_results (results : List RDoc) : List RDoc :=
  results.map (fun r =>
    { text := r.text, score := r.score, video_id := r.video_id,
      chunk_id := r.chunk_id, metadata := r.metadata })

/-! ## `_sparse_search` (`hybrid_retriever.py`)

```python
if self.bm25 is None or not self.corpus:
    return []
scores = self.bm25.get_scores(tokenized_query)
top_indices = sorted(range(len(scores)), key=lambda i: scores[i], reverse=True)[:top_k]
results = []
for idx in top_indices:
    if scores[idx] > 0:
        result = self.corpus_metadata[idx].copy()
        result["score"] = float(scores[idx])
        result["search_type"] = "sparse"
        results.append(result)
```
`rank_bm25` is an external library; the score vector it returns for the query
is passed in as `scores` (`bm25 = none` models an uninitialized index). -/

def top_bm25_indices (scores : List ℚ) (top_k : ℕ) : List ℕ :=
  (sortDesc (fun i => scores.getD i 0) (List.range scores.length)).take top_k

def sparse_search (bm25 : Option (List ℚ)) (corpus : List String)
    (corpus_metadata : List RDoc) (top_k : ℕ) : List RDoc :=
  match bm25 with
  | none => []
  | some scores =>
    if corpus = [] then []
    else
      ((top_bm25_indices scores top_k).filter (fun i => decide (0 < scores.getD i 0))).map
        (fun i => { corpus_metadata.getD i default with
                      score := scores.getD i 0, search_type := some "sparse" })

/-! ## `HybridRetriever.retrieve` (`hybrid_retriever.py`)

`retrieve` validates the query, obtains `2 * topK` dense results (the dense
retriever and the vector store are external: the dense result list is an
argument), initializes BM25 over exactly those results (so the index exists
iff the dense list is non-empty, and the corpus/metadata are the dense texts
and results), sparse-searches for `2 * topK` candidates, merges, truncates to
`topK`, overwrites `score` with the fused score, and formats. -/

def hybridSparse (dense_results : List RDoc) (bm25_scores : List ℚ) (top_k : ℕ) :
    List RDoc :=
  sparse_search (if dense_results = [] then none else some bm25_scores)
    (dense_results.map (·.text)) dense_results (2 * top_k)

def hybridFinal (dw sw : ℚ) (dense_results : List RDoc) (bm25_scores : List ℚ)
    (top_k : ℕ) : List RDoc :=
  format_results
    (((merge_results dw sw dense_results
          (hybridSparse dense_results bm25_scores top_k)).take top_k).map
      (fun r => { r with score := r.hybrid_score.getD r.score }))

def hybridRetrieve (dw sw : ℚ) (q : String) (dense_results : List RDoc)
    (bm25_scores : List ℚ) (top_k : ℕ) : Except String (List RDoc) :=
  match validate_query q with
  | some err => Except.error err
  | none => Except.ok (hybridFinal dw sw dense_results bm25_scores top_k)

/-- `SimpleRetriever.retrieve`: validate, query the (external) vector store,
format. -/
def simpleRetrieve (q : String) (store_results : List RDoc) :
    Except String (List RDoc) :=
  match validate_query q with
  | some err => Except.error err
  | none => Except.ok (format_results store_results)

/-- `QueryRewritingRetriever.retrieve`: validate, rewrite via the (external)
LLM, delegate to the base retriever (external here), and annotate each result
with the original and rewritten query. -/
def rewriteRetrieve (q rewritten_query : String) (base_results : List RDoc) :
    Except String (List RDoc) :=
  match validate_query q with
  | some err => Except.error err
  | none => Except.ok (base_results.map (fun r =>
      { r with original_query := some q, rewritten_query := some rewritten_query }))

/-- C6, claim, spec §4.2: sparse search returns at most `topK` results, each
with strictly positive score, descending by score with ties broken by
original candidate order (stable sort of the index range); an unbuilt index
or an empty candidate set yields `[]`, not an error. -/
theorem sparse_search_spec (scores : List ℚ) (corpus : List String)
    (corpus_metadata : List RDoc) (top_k : ℕ) :
    (sparse_search none corpus corpus_metadata top_k = []) ∧
    (sparse_search (some scores) [] corpus_metadata top_k = []) ∧
    ((sparse_search (some scores) corpus corpus_metadata top_k).length ≤ top_k) ∧
    ((sparse_search (some scores) corpus corpus_metadata top_k).all
      (fun r => decide (0 < r.score)) = true) ∧
    ((sparse_search (some scores) corpus corpus_metadata top_k).Pairwise
      (fun a b => b.score ≤ a.score)) ∧
    (((top_bm25_indices scores top_k).filter
        (fun i => decide (0 < scores.getD i 0))).Pairwise
      (fun i j => scores.getD j 0 < scores.getD i 0 ∨
        (scores.getD i 0 = scores.getD j 0 ∧ i < j))) := by
  have hrange : (List.range scores.length).Pairwise (· < ·) := List.pairwise_lt_range _
  have hstable := sortDesc_pairwise_stable (fun i => scores.getD i 0) (· < ·)
    (List.range scores.length) hrange
  have htake : ((sortDesc (fun i => scores.getD i 0)
        (List.range scores.length)).take top_k).Pairwise
      (fun i j => scores.getD j 0 < scores.getD i 0 ∨
        (scores.getD i 0 = scores.getD j 0 ∧ i < j)) :=
    List.Pairwise.sublist (List.take_sublist _ _) hstable
  have hposidx : ((top_bm25_indices scores top_k).filter
        (fun i => decide (0 < scores.getD i 0))).Pairwise
      (fun i j => scores.getD j 0 < scores.getD i 0 ∨
        (scores.getD i 0 = scores.getD j 0 ∧ i < j)) :=
    List.Pairwise.sublist (List.filter_sublist _) htake
  refine ⟨rfl, by simp [sparse_search], ?_, ?_, ?_, hposidx⟩
  · simp only [sparse_search]
    by_cases hc : corpus = []
    · simp [hc]
    · rw [if_neg hc]
      calc (((top_bm25_indices scores top_k).filter
              (fun i => decide (0 < scores.getD i 0))).map _).length
          = ((top_bm25_indices scores top_k).filter
              (fun i => decide (0 < scores.getD i 0))).length := List.length_map _ _
        _ ≤ (top_bm25_indices scores top_k).length := List.length_filter_le _ _
        _ ≤ top_k := by
            unfold top_bm25_indices
            exact List.length_take_le _ _
  · simp only [sparse_search]
    by_cases hc : corpus = []
    · simp [hc]
    · rw [if_neg hc]
      rw [List.all_eq_true]
      intro r hr
      rcases List.mem_map.mp hr with ⟨i, hi, rfl⟩
      have hpos := List.of_mem_filter hi
      simp only [decide_eq_true_eq] at hpos
      simpa using hpos
  · simp only [sparse_search]
    by_cases hc : corpus = []
    · simp [hc]
    · rw [if_neg hc]
      rw [List.pairwise_map]
      refine hposidx.imp ?_
      rintro i j (h | ⟨h, -⟩)
      · exact le_of_lt h
      · exact le_of_eq h.symm

/-- Witness for `sparse_search_spec`: an unbuilt index returns `[]`, and at a
concrete score vector the top-2 positive results come back sorted. -/
theorem sparse_search_spec_witness :
    sparse_search none ["t"] [{ id := "a" }] 2 = [] ∧
    (sparse_search (some [1, 3, 0]) ["t", "u", "v"]
        [{ id := "a" }, { id := "b" }, { id := "c" }] 2).Pairwise
      (fun a b => b.score ≤ a.score) :=
  ⟨(sparse_search_spec [] ["t"] [{ id := "a" }] 2).1,
   (sparse_search_spec [1, 3, 0] ["t", "u", "v"]
      [{ id := "a" }, { id := "b" }, { id := "c" }] 2).2.2.2.2.1⟩

theorem map_const_none (l : List RDoc) (f : RDoc → Option ℚ)
    (hf : ∀ r, f r = none) : l.map f = List.replicate l.length none := by
  induction l with
  | nil => rfl
  | cons x xs ih => simp [hf, ih, List.replicate]

/-- C3, amended: a validated hybrid retrieval returns at most `topK` results
and each result's `score` equals its fused hybrid score; but the final
`_format_results` pass rebuilds each dict with only
`text`/`score`/`video_id`/`chunk_id`/`metadata`, so the returned results carry
*no* `dense_score` or `sparse_score` key (those exist only on the merged
results before formatting). -/
theorem hybrid_retrieve_spec (dw sw : ℚ) (q : String) (dense_results : List RDoc)
    (bm25_scores : List ℚ) (top_k : ℕ) (h : validate_query q = none) :
    (hybridRetrieve dw sw q dense_results bm25_scores top_k =
      Except.ok (hybridFinal dw sw dense_results bm25_scores top_k)) ∧
    ((hybridFinal dw sw dense_results bm25_scores top_k).length ≤ top_k) ∧
    ((hybridFinal dw sw dense_results bm25_scores top_k).map (·.score) =
      ((merge_results dw sw dense_results
          (hybridSparse dense_results bm25_scores top_k)).take top_k).map
        (fun e => e.hybrid_score.getD e.score)) ∧
    ((hybridFinal dw sw dense_results bm25_scores top_k).map (·.dense_score) =
      List.replicate (hybridFinal dw sw dense_results bm25_scores top_k).length none) ∧
    ((hybridFinal dw sw dense_results bm25_scores top_k).map (·.sparse_score) =
      List.replicate (hybridFinal dw sw dense_results bm25_scores top_k).length none) := by
  refine ⟨?_, ?_, ?_, ?_, ?_⟩
  · unfold hybridRetrieve
    rw [h]
  · unfold hybridFinal format_results
    rw [List.length_map, List.length_map]
    exact List.length_take_le _ _
  · unfold hybridFinal format_results
    rw [List.map_map, List.map_map]
    rfl
  · unfold hybridFinal format_results
    rw [List.map_map, List.map_map, List.length_map, List.length_map]
    exact map_const_none _ _ (fun r => rfl)
  · unfold hybridFinal format_results
    rw [List.map_map, List.map_map, List.length_map, List.length_map]
    exact map_const_none _ _ (fun r => rfl)

/-- Witness for `hybrid_retrieve_spec` at a concrete validated query. -/
theorem hybrid_retrieve_spec_witness :
    hybridRetrieve (7/10) (3/10) "hi" [] [] 3 =
      Except.ok (hybridFinal (7/10) (3/10) [] [] 3) :=
  (hybrid_retrieve_spec (7/10) (3/10) "hi" [] [] 3 (by decide)).1

/-- Counterexample to C3 as stated: the single result returned by a concrete
hybrid retrieval has no `dense_score` and no `sparse_score` field at all
(`none`), rather than carrying both fields. -/
theorem hybrid_retrieve_fields_counterexample :
    (hybridFinal (7/10) (3/10) [{ id := "a", text := "t", score := 9/10 }] [] 4).map
        (·.dense_score) = [none] ∧
    (hybridFinal (7/10) (3/10) [{ id := "a", text := "t", score := 9/10 }] [] 4).map
        (·.sparse_score) = [none] ∧
    (hybridFinal (7/10) (3/10) [{ id := "a", text := "t", score := 9/10 }] [] 4).length
      = 1 ∧
    ((none : Option ℚ)).isSome = false := by
  have hn : normalize_scores [{ id := "a", text := "t", score := 9/10 }] =
      [{ id := "a", text := "t", score := 9/10 }] := by
    unfold normalize_scores
    norm_num [listMin, listMax]
  have hm : merge_results (7/10) (3/10) [{ id := "a", text := "t", score := 9/10 }]
        (hybridSparse [{ id := "a", text := "t", score := 9/10 }] [] 4) =
      [mkDenseEntry (7/10) { id := "a", text := "t", score := 9/10 }] := by
    show sortDesc _ (combinedEntries _ _
      (normalize_scores [{ id := "a", text := "t", score := 9/10 }])
      (normalize_scores (hybridSparse [{ id := "a", text := "t", score := 9/10 }] [] 4)))
        = _
    rw [hn]
    rfl
  have hfin : hybridFinal (7/10) (3/10) [{ id := "a", text := "t", score := 9/10 }] [] 4 =
      format_results (([mkDenseEntry (7/10) { id := "a", text := "t", score := 9/10 }].take 4).map
        (fun r => { r with score := r.hybrid_score.getD r.score })) := by
    unfold hybridFinal
    rw [hm]
  rw [hfin]
  exact ⟨rfl, rfl, rfl, rfl⟩

/-- C10, claim: every retriever built on `BaseRetriever` (simple, rewriting,
hybrid) raises `ValueError` for an empty/whitespace-only query and for a
query longer than 1000 characters, before any external work — the error is
the same whatever the external stages (vector store, BM25 scores, rewritten
query, base results) would have returned; and every query of length at most
1000 containing a non-whitespace character passes validation. -/
theorem validate_before_external (q err : String) (store_results base_results
    dense_results : List RDoc) (bm25_scores : List ℚ) (top_k : ℕ) (dw sw : ℚ)
    (rewritten_query : String) :
    ((q.data.all isPyWs = true ∨ 1000 < q.length) → (validate_query q).isSome) ∧
    (validate_query q = some err →
      (simpleRetrieve q store_results = Except.error err ∧
       hybridRetrieve dw sw q dense_results bm25_scores top_k = Except.error err ∧
       rewriteRetrieve q rewritten_query base_results = Except.error err)) ∧
    (q.length ≤ 1000 → q.data.any (fun c => !isPyWs c) = true →
      validate_query q = none) := by
  refine ⟨?_, ?_, ?_⟩
  · intro h
    unfold validate_query
    by_cases h1 : q.data.all isPyWs
    · rw [if_pos h1]
      rfl
    · rw [if_neg h1]
      rcases h with h | h
      · exact absurd h h1
      · rw [if_pos h]
        rfl
  · intro h
    refine ⟨?_, ?_, ?_⟩
    · unfold simpleRetrieve
      rw [h]
    · unfold hybridRetrieve
      rw [h]
    · unfold rewriteRetrieve
      rw [h]
  · intro hlen hany
    have hnall : ¬ (q.data.all isPyWs = true) := by
      intro hall
      rcases List.any_eq_true.mp hany with ⟨c, hc, hnc⟩
      rw [List.all_eq_true] at hall
      have := hall c hc
      rw [this] at hnc
      simp at hnc
    unfold validate_query
    rw [if_neg hnall, if_neg (not_lt.mpr hlen)]

/-- Witness for `validate_before_external`: the empty query is rejected with
the same error by a retriever regardless of external results, a query
consisting of a single no-break space (stripped to nothing by Python) is
rejected, and a short non-blank query passes. -/
theorem validate_before_external_witness :
    simpleRetrieve "" [] = Except.error "Query cannot be empty" ∧
    (validate_query " ").isSome ∧
    validate_query "ok" = none :=
  ⟨((validate_before_external "" "Query cannot be empty" [] [] [] [] 3 1 0 "r").2.1
      (by decide)).1,
   (validate_before_external " " "e" [] [] [] [] 3 1 0 "r").1 (Or.inl (by decide)),
   (validate_before_external "ok" "e" [] [] [] [] 3 1 0 "r").2.2 (by decide) (by decide)⟩

/-! ## Citation extraction (`citation_handler.py`)

```python
pattern = r'\[Chunk\s+(\d+)\]'
matches = re.findall(pattern, text)
chunk_ids = [int(match) for match in matches]
```
`re.findall` scans left to right and collects non-overlapping leftmost
matches.  The pattern is literal `[Chunk`, then one or more whitespace
characters, then one or more digits, then `]`; since whitespace and digits
are disjoint and the closing bracket is neither, the regex engine's greedy
matching is committed (no backtracking changes the outcome), so a match
attempt at a position is the sequential matcher below. -/

def digitsToNat (ds : List Char) : ℕ :=
  ds.foldl (fun a c => 10 * a + (c.toNat - 48)) 0

/-- `\s+` (committed): one whitespace character, then all following ones. -/
def matchWs : List Char → Option (List Char)
  | [] => none
  | c :: cs => if isPyWs c then some (cs.dropWhile isPyWs) else none

/-- `(\d+)` (committed): the maximal non-empty digit run and its value. -/
def matchDigits (l : List Char) : Option (ℕ × List Char) :=
  let ds := l.takeWhile Char.isDigit
  if ds.isEmpty then none
  else some (digitsToNat ds, l.dropWhile Char.isDigit)

/-- One attempt to match `\[Chunk\s+(\d+)\]` at the head of `l`; on success
returns the captured value and the text after the match. -/
def matchChunkAt (l : List Char) : Option (ℕ × List Char) :=
  if l.take 6 = ['[', 'C', 'h', 'u', 'n', 'k'] then
    match matchWs (l.drop 6) with
    | none => none
    | some r1 =>
      match matchDigits r1 with
      | none => none
      | some (n, r2) =>
        match r2 with
        | [] => none
        | c :: r3 => if c = ']' then some (n, r3) else none
  else none

/-- `re.findall`: try each position left to right; on a match, emit the value
and resume after the match.  The fuel (initially the text length) only powers
the recursion: every step consumes at least one character. -/
def scanCitations : ℕ → List Char → List ℕ
  | 0, _ => []
  | _ + 1, [] => []
  | fuel + 1, c :: cs =>
    match matchChunkAt (c :: cs) with
    | some (n, rest) => n :: scanCitations fuel rest
    | none => scanCitations fuel cs

def extractL (l : List Char) : List ℕ := scanCitations l.length l

/-- `CitationHandler.extract_citations`. -/
def extract_citations (text : String) : List ℕ := extractL text.data

theorem matchWs_lt (l r : List Char) (h : matchWs l = some r) : r.length < l.length := by
  cases l with
  | nil => exact absurd h (by simp [matchWs])
  | cons c cs =>
    simp only [matchWs] at h
    by_cases hc : isPyWs c
    · rw [if_pos hc] at h
      injection h with h
      subst h
      exact Nat.lt_succ_of_le (List.Sublist.length_le (List.dropWhile_sublist _))
    · rw [if_neg hc] at h
      exact absurd h (by simp)

theorem matchDigits_lt (l : List Char) (n : ℕ) (r : List Char)
    (h : matchDigits l = some (n, r)) : r.length < l.length := by
  unfold matchDigits at h
  by_cases hd : (l.takeWhile Char.isDigit).isEmpty
  · rw [if_pos hd] at h
    exact absurd h (by simp)
  · rw [if_neg hd] at h
    injection h with h
    have hr : r = l.dropWhile Char.isDigit := (congrArg Prod.snd h).symm
    have hsplit : l.takeWhile Char.isDigit ++ l.dropWhile Char.isDigit = l := by
      simp [List.takeWhile_append_dropWhile]
    have hlen : (l.takeWhile Char.isDigit).length + (l.dropWhile Char.isDigit).length
        = l.length := by
      rw [← List.length_append, hsplit]
    have hpos : 0 < (l.takeWhile Char.isDigit).length := by
      cases htw : l.takeWhile Char.isDigit with
      | nil => rw [htw] at hd; exact absurd rfl hd
      | cons x xs => simp
    subst hr
    omega

theorem matchChunkAt_lt (l : List Char) (n : ℕ) (rest : List Char) :
    matchChunkAt l = some (n, rest) → rest.length < l.length := by
  unfold matchChunkAt
  by_cases h6 : l.take 6 = ['[', 'C', 'h', 'u', 'n', 'k']
  · rw [if_pos h6]
    cases hw : matchWs (l.drop 6) with
    | none =>
      intro h
      exact absurd h (by simp)
    | some r1 =>
      dsimp only
      cases hdg : matchDigits r1 with
      | none =>
        intro h
        exact absurd h (by simp)
      | some p =>
        rcases p with ⟨m, r2⟩
        dsimp only
        cases r2 with
        | nil =>
          intro h
          exact absurd h (by simp)
        | cons c r3 =>
          dsimp only
          by_cases hc : c = ']'
          · rw [if_pos hc]
            intro h
            injection h with h
            have hrest : rest = r3 := (congrArg Prod.snd h).symm
            subst hrest
            have h1 : rest.length < (c :: rest).length := by simp
            have h2 : (c :: rest).length < r1.length := matchDigits_lt r1 m (c :: rest) hdg
            have h3 : r1.length < (l.drop 6).length := matchWs_lt _ _ hw
            have h4 : (l.drop 6).length <= l.length := by
              rw [List.length_drop]
              omega
            omega
          · rw [if_neg hc]
            intro h
            exact absurd h (by simp)
  · rw [if_neg h6]
    intro h
    exact absurd h (by simp)

theorem scanCitations_fuel : ∀ (fuel : ℕ) (l : List Char), l.length ≤ fuel →
    scanCitations fuel l = scanCitations l.length l := by
  intro fuel
  induction fuel using Nat.strong_induction_on with
  | _ fuel ih =>
    intro l hl
    cases fuel with
    | zero =>
      cases l with
      | nil => rfl
      | cons c cs => simp at hl
    | succ f =>
      cases l with
      | nil => rfl
      | cons c cs =>
        have hcs : cs.length ≤ f := by simpa using hl
        show scanCitations (f + 1) (c :: cs) = scanCitations (cs.length + 1) (c :: cs)
        cases hm : matchChunkAt (c :: cs) with
        | none =>
          simp only [scanCitations, hm]
          rw [ih f (Nat.lt_succ_self f) cs hcs]
        | some p =>
          rcases p with ⟨n, rest⟩
          have hrest : rest.length < (c :: cs).length := matchChunkAt_lt _ _ _ hm
          simp only [List.length_cons] at hrest
          simp only [scanCitations, hm]
          rw [ih f (Nat.lt_succ_self f) rest (by omega),
              ih cs.length (by omega) rest (by omega)]

theorem matchChunkAt_none_of_ne (c : Char) (cs : List Char) (hc : c ≠ '[') :
    matchChunkAt (c :: cs) = none := by
  have hcond : ¬ ((c :: cs).take 6 = ['[', 'C', 'h', 'u', 'n', 'k']) := by
    rw [List.take_succ_cons]
    intro h
    injection h with h1 _
    exact hc h1
  unfold matchChunkAt
  rw [if_neg hcond]

theorem scan_no_bracket : ∀ (fuel : ℕ) (t : List Char), '[' ∉ t →
    scanCitations fuel t = [] := by
  intro fuel
  induction fuel with
  | zero => intro t _; rfl
  | succ f ih =>
    intro t ht
    cases t with
    | nil => rfl
    | cons c cs =>
      have hc : c ≠ '[' := fun h => ht (h ▸ List.mem_cons_self c cs)
      simp only [scanCitations, matchChunkAt_none_of_ne c cs hc]
      exact ih cs (fun h => ht (List.mem_cons_of_mem c h))

/-- C7, amended: `extract_citations` returns the values of all
`[Chunk<whitespace>⁺<digits>]` markers in left-to-right order with duplicates
preserved — a marker prefixed to any text contributes its value, text without
`[` contributes nothing, and the claim's example holds; exact `Chunk`
capitalization and the bracket-word-integer shape are required, but *one or
more* whitespace characters are accepted between `Chunk` and the integer, not
only a single space. -/
theorem extract_citations_spec :
    (∀ t : List Char,
      extractL ('[' :: 'C' :: 'h' :: 'u' :: 'n' :: 'k' :: ' ' :: '7' :: ']' :: t) =
        7 :: extractL t) ∧
    (∀ t : List Char, '[' ∉ t → extractL t = []) ∧
    (extract_citations "A [Chunk 0] B [Chunk 2] C [Chunk 0]" = [0, 2, 0]) ∧
    (extract_citations "A [chunk 0] B [Chunk3] C [Chunk 1x]" = []) ∧
    (extract_citations "A [Chunk  0] B [Chunk\t2]" = [0, 2]) := by
  refine ⟨?_, ?_, by decide, by decide, by decide⟩
  · intro t
    have hm : matchChunkAt
        ('[' :: 'C' :: 'h' :: 'u' :: 'n' :: 'k' :: ' ' :: '7' :: ']' :: t) =
        some (7, t) := rfl
    unfold extractL
    have hlen : ('[' :: 'C' :: 'h' :: 'u' :: 'n' :: 'k' :: ' ' :: '7' :: ']' :: t).length
        = (t.length + 8) + 1 := by simp
    rw [hlen]
    simp only [scanCitations, hm]
    rw [scanCitations_fuel (t.length + 8) t (by omega)]
  · intro t ht
    exact scan_no_bracket t.length t ht

/-- Witness for `extract_citations_spec`: bracket-free text extracts nothing,
and a marker prefix contributes its value. -/
theorem extract_citations_spec_witness :
    extractL ['a', 'b'] = [] ∧
    extractL ('[' :: 'C' :: 'h' :: 'u' :: 'n' :: 'k' :: ' ' :: '7' :: ']' :: ['a']) =
      7 :: extractL ['a'] :=
  ⟨extract_citations_spec.2.1 ['a', 'b'] (by decide),
   extract_citations_spec.1 ['a']⟩

/-- Counterexample to C7 as stated: a marker with **two** spaces before the
integer is extracted by the code, although the claim says matching requires a
single space, so near-miss forms are not extracted. -/
theorem extract_citations_counterexample :
    extract_citations "A [Chunk  0]" = [0] ∧ ([0] : List ℕ) ≠ [] := by
  exact ⟨by decide, by decide⟩

/-! ## Source linking (`CitationHandler.add_source_info`)

```python
cited_ids = self.extract_citations(answer)
chunk_map = {chunk.get("chunk_id", i): chunk for i, chunk in enumerate(chunks)}
sources = []
for chunk_id in cited_ids:
    if chunk_id in chunk_map:
        chunk = chunk_map[chunk_id]
        sources.append({"chunk_id": chunk_id, "text": ..., "video_id": ..., "score": ...})
result = {"answer": answer, "citations": cited_ids, "sources": sources,
          "num_citations": len(cited_ids), "num_valid_citations": len(sources)}
```
-/

structure SrcChunk where
  chunk_id : Option ℕ := none
  text : String := ""
  video_id : String := "unknown"
  score : ℚ := 0
deriving DecidableEq, Repr, Inhabited

structure SourceInfo where
  chunk_id : ℕ
  text : String
  video_id : String
  score : ℚ
deriving DecidableEq, Repr

structure SourceResult where
  answer : String
  citations : List ℕ
  sources : List SourceInfo
  num_citations : ℕ
  num_valid_citations : ℕ
deriving DecidableEq, Repr

/-- `chunk_map[cid]` for the dict comprehension keyed by
`chunk.get("chunk_id", i)`: the last chunk whose declared chunk-index (or
position, when undeclared) equals `cid`. -/
def chunk_map_find (chunks : List SrcChunk) (cid : ℕ) : Option SrcChunk :=
  chunks.enum.foldl
    (fun acc p => if p.2.chunk_id.getD p.1 = cid then some p.2 else acc) none

def add_source_info (answer : String) (chunks : List SrcChunk) : SourceResult :=
  let cited_ids := extract_citations answer
  let sources := cited_ids.filterMap (fun cid =>
    (chunk_map_find chunks cid).map (fun c =>
      { chunk_id := cid, text := c.text, video_id := c.video_id, score := c.score }))
  { answer := answer, citations := cited_ids, sources := sources,
    num_citations := cited_ids.length, num_valid_citations := sources.length }

theorem filterMap_sources_ids (chunks : List SrcChunk) (cited : List ℕ) :
    (cited.filterMap (fun cid =>
        (chunk_map_find chunks cid).map (fun c =>
          ({ chunk_id := cid, text := c.text, video_id := c.video_id,
             score := c.score } : SourceInfo)))).map (·.chunk_id) =
      cited.filter (fun cid => (chunk_map_find chunks cid).isSome) := by
  induction cited with
  | nil => rfl
  | cons cid rest ih =>
    cases hf : chunk_map_find chunks cid with
    | none => simp [List.filterMap_cons, hf, ih]
    | some c => simp [List.filterMap_cons, hf, ih]

/-- C8, amended: `add_source_info` retains every extracted marker occurrence
in `citations` (duplicates and order preserved), builds one source entry per
cited *occurrence* whose index resolves in the chunk map (so a duplicated
citation of the same index yields duplicate source entries), drops unresolved
indices from `sources` only, and reports the resolved count separately from
the total; the claim's `[0, 2, 5]` example holds since its indices are
distinct. -/
theorem add_source_info_spec (answer : String) (chunks : List SrcChunk) :
    ((add_source_info answer chunks).citations = extract_citations answer) ∧
    ((add_source_info answer chunks).num_citations =
      (add_source_info answer chunks).citations.length) ∧
    ((add_source_info answer chunks).num_valid_citations =
      (add_source_info answer chunks).sources.length) ∧
    ((add_source_info answer chunks).sources.map (·.chunk_id) =
      (add_source_info answer chunks).citations.filter
        (fun cid => (chunk_map_find chunks cid).isSome)) ∧
    ((add_source_info "A [Chunk 0] B [Chunk 2] C [Chunk 5]"
        [{ chunk_id := some 0 }, { chunk_id := some 2 }]).citations = [0, 2, 5]) ∧
    ((add_source_info "A [Chunk 0] B [Chunk 2] C [Chunk 5]"
        [{ chunk_id := some 0 }, { chunk_id := some 2 }]).num_citations = 3) ∧
    ((add_source_info "A [Chunk 0] B [Chunk 2] C [Chunk 5]"
        [{ chunk_id := some 0 }, { chunk_id := some 2 }]).num_valid_citations = 2) ∧
    ((add_source_info "A [Chunk 0] B [Chunk 2] C [Chunk 5]"
        [{ chunk_id := some 0 }, { chunk_id := some 2 }]).sources.length = 2) :=
  ⟨rfl, rfl, rfl, filterMap_sources_ids chunks (extract_citations answer),
   by decide, by decide, by decide, by decide⟩

/-- Counterexample to C8 as stated: citing chunk 0 twice yields **two**
resolved source entries, not one per distinct cited index. -/
theorem add_source_info_counterexample :
    ((add_source_info "A [Chunk 0] B [Chunk 0]" [{ chunk_id := some 0 }]).sources.map
      (·.chunk_id) = [0, 0]) ∧
    ((add_source_info "A [Chunk 0] B [Chunk 0]" [{ chunk_id := some 0 }]).sources.length
      ≠ 1) := by
  exact ⟨by decide, by decide⟩

/-! ## `CitationHandler.remove_citations`

```python
pattern = r'\s*\[Chunk\s+\d+\]\s*'
clean_text = re.sub(pattern, ' ', text)
clean_text = ' '.join(clean_text.split())
```
A position matches when dropping its maximal whitespace run lands on a
`[Chunk\s+\d+]` marker (with `\s*` and `\s+`/`\d+` over disjoint character
classes, greedy matching is committed); the trailing `\s*` then swallows the
following whitespace run.  `re.sub` scans left to right over non-overlapping
matches, replacing each with one space.  `' '.join(text.split())` splits on
whitespace runs, dropping empty fields, and rejoins with single spaces. -/

def matchSubAt (l : List Char) : Option (List Char) :=
  match matchChunkAt (l.dropWhile isPyWs) with
  | some p => some (p.2.dropWhile isPyWs)
  | none => none

/-- `re.sub(pattern, ' ', text)`, fuelled by the text length (each match
consumes at least the 9 characters of a marker). -/
def scanSub : ℕ → List Char → List Char
  | 0, l => l
  | _ + 1, [] => []
  | fuel + 1, c :: cs =>
    match matchSubAt (c :: cs) with
    | some rest => ' ' :: scanSub fuel rest
    | none => c :: scanSub fuel cs

/-- `str.split()`: split on whitespace runs, dropping empty fields. -/
def splitWsAux : ℕ → List Char → List (List Char)
  | 0, _ => []
  | fuel + 1, l =>
    match l.dropWhile isPyWs with
    | [] => []
    | c :: cs =>
      ((c :: cs).takeWhile (fun ch => !isPyWs ch)) ::
        splitWsAux fuel ((c :: cs).dropWhile (fun ch => !isPyWs ch))

/-- `' '.join(words)`. -/
def joinSpace : List (List Char) → List Char
  | [] => []
  | [w] => w
  | w :: ws => w ++ ' ' :: joinSpace ws

def remove_citations (text : String) : String :=
  ⟨joinSpace (splitWsAux text.data.length (scanSub text.data.length text.data))⟩

/-- C9: at the claim's own example the code returns `"Fact one . Fact two ."`
— each marker (with its surrounding whitespace) is replaced by a single
space, leaving a space before the following period — not the documented
`"Fact one. Fact two."`; the same happens on the function's docstring example
`"RAG is useful [Chunk 0]."`. -/
theorem remove_citations_divergence :
    (remove_citations "Fact one [Chunk 0]. Fact two [Chunk 1]." =
      "Fact one . Fact two .") ∧
    ("Fact one . Fact two ." ≠ "Fact one. Fact two.") ∧
    (remove_citations "RAG is useful [Chunk 0]." = "RAG is useful .") := by
  exact ⟨by decide, by decide, by decide⟩

end RagCore
